import Mathlib

set_option autoImplicit false

-- Shallow embedding of the `app_health` crate's core pipeline:
-- health severities, signals, per-component state bookkeeping, the
-- debouncer gate, the component/aggregator worker update steps, and the
-- publisher handle.  Machine integers (`usize`) are modelled as `Nat`;
-- `usize` subtraction, which can underflow (panic) in the source, is
-- modelled with `Option`.  Time instants are modelled as `Nat` ticks.

/-- The five-level severity enum of `health.rs`; ordering reflects
declaration order (`Nominal < Degraded < Critical < Down < Unrecoverable`),
as produced by Rust's derived `Ord`. -/
inductive Health where
  | Nominal
  | Degraded
  | Critical
  | Down
  | Unrecoverable
deriving DecidableEq, Repr, Inhabited

/-- The discriminant of a `Health` value, as used by `as usize` casts in the
source (array indexing and filter bit positions). -/
def Health.toIndex : Health → Nat
  | .Nominal => 0
  | .Degraded => 1
  | .Critical => 2
  | .Down => 3
  | .Unrecoverable => 4

instance : LE Health := ⟨fun a b => a.toIndex ≤ b.toIndex⟩

instance : LT Health := ⟨fun a b => a.toIndex < b.toIndex⟩

instance (a b : Health) : Decidable (a ≤ b) := Nat.decLe a.toIndex b.toIndex

instance (a b : Health) : Decidable (a < b) := Nat.decLt a.toIndex b.toIndex

/-- `NUM_HEALTH_STATES` from `health.rs`. -/
def NUM_HEALTH_STATES : Nat := 5

/-- `ALL_HEALTH_STATES` from `health.rs`: the five severities in order. -/
def ALL_HEALTH_STATES : List Health :=
  [Health.Nominal, Health.Degraded, Health.Critical, Health.Down, Health.Unrecoverable]

/-- The value part of a signal attribute (`attribute_value.rs`).  The `f64`
payload of `Double` is represented by its 64-bit pattern as a `Nat`; no
claim inspects it. -/
inductive AttributeValue where
  | int (i : Int)
  | double (bits : Nat)
  | str (s : String)
  | boolean (b : Bool)
deriving DecidableEq, Repr

/-- A name/value pair (`attribute.rs`); structural equality considers both
name and value. -/
structure Attribute where
  name : String
  value : AttributeValue
deriving DecidableEq, Repr

/-- Modelled from the spec: `signal.rs` is not under `src/`.  A `Signal` is
"a `Health` plus a set of `Attribute`s.  Equality and hashing consider both
the severity and the full attribute set (order-insensitive)"; the
order-insensitive attribute collection is a multiset. -/
structure Signal where
  state : Health
  attrs : Multiset Attribute

instance : DecidableEq Signal := fun a b =>
  decidable_of_iff (a.state = b.state ∧ a.attrs = b.attrs)
    (by cases a; cases b; simp)

/-- Modelled from the spec: the "nominal empty" `Signal`, the canonical
initial state of any publisher. -/
def Signal.nominal : Signal := ⟨Health.Nominal, 0⟩

/-- Modelled from the spec: `Signal::new(health, attributes)` constructs a
signal from a severity and an attribute collection. -/
def Signal.new (state : Health) (attrs : Multiset Attribute) : Signal := ⟨state, attrs⟩

/-- The report filter of `filter.rs`: a bitset over `u32` with one bit per
severity. -/
structure ReportFilter where
  bits : Nat
deriving DecidableEq, Repr

/-- `Filter::NOMINAL`. -/
def ReportFilter.NOMINAL : ReportFilter := ⟨1 <<< Health.Nominal.toIndex⟩

/-- `Filter::DEGRADED`. -/
def ReportFilter.DEGRADED : ReportFilter := ⟨1 <<< Health.Degraded.toIndex⟩

/-- `Filter::CRITICAL`. -/
def ReportFilter.CRITICAL : ReportFilter := ⟨1 <<< Health.Critical.toIndex⟩

/-- `Filter::DOWN`. -/
def ReportFilter.DOWN : ReportFilter := ⟨1 <<< Health.Down.toIndex⟩

/-- `Filter::UNRECOVERABLE`. -/
def ReportFilter.UNRECOVERABLE : ReportFilter := ⟨1 <<< Health.Unrecoverable.toIndex⟩

/-- `Filter::ALL`: the union of the five severity bits. -/
def ReportFilter.ALL : ReportFilter :=
  ⟨ReportFilter.NOMINAL.bits ||| ReportFilter.DEGRADED.bits ||| ReportFilter.CRITICAL.bits |||
    ReportFilter.DOWN.bits ||| ReportFilter.UNRECOVERABLE.bits⟩

/-- `Filter::empty()` from the `bitflags` crate: no bits set. -/
def ReportFilter.empty : ReportFilter := ⟨0⟩

/-- One bucket of `ComponentState::signals`: association list modelling
`HashMap<Signal, usize>` (each key occurs at most once in reachable
states). -/
def SignalMap : Type := List (Signal × Nat)

/-- `ComponentState` of `component_state.rs`.  The `Cell<Option<Health>>`
cache is the `state` field; `counts` and `signals` are indexed by the
severity (the source indexes arrays by `severity as usize`). -/
structure ComponentState where
  name : String
  state : Option Health
  counts : Health → Nat
  signals : Health → List (Signal × Nat)

/-- `ComponentState::new`. -/
def ComponentState.new (name : String) : ComponentState :=
  ⟨name, none, fun _ => 0, fun _ => []⟩

/-- `*self.signals[index].entry(signal).or_insert(0) += 1`: increment the
multiplicity of `signal`, inserting it with multiplicity 1 when absent. -/
def bumpEntry : List (Signal × Nat) → Signal → List (Signal × Nat)
  | [], s => [(s, 1)]
  | (k, v) :: rest, s =>
    if k = s then (k, v + 1) :: rest else (k, v) :: bumpEntry rest s

/-- `ComponentState::add_publisher_signal`. -/
def ComponentState.add_publisher_signal (cs : ComponentState) (signal : Signal) :
    ComponentState :=
  let index := signal.state
  { cs with
    state := none
    counts := Function.update cs.counts index (cs.counts index + 1)
    signals := Function.update cs.signals index (bumpEntry (cs.signals index) signal) }

/-- `dec_or_remove` of `component_state.rs`: decrement the multiplicity of
`key`, removing the entry when it reaches zero; a missing key leaves the
map unchanged. -/
def dec_or_remove : List (Signal × Nat) → Signal → List (Signal × Nat)
  | [], _ => []
  | (k, v) :: rest, key =>
    if k = key then (if v = 1 then rest else (k, v - 1) :: rest)
    else (k, v) :: dec_or_remove rest key

/-- `ComponentState::remove_publisher_signal`.  The source decrements
`counts[index]` with an unchecked `usize` subtraction; the underflowing
branch (a panic in the source) is modelled as `none`. -/
def ComponentState.remove_publisher_signal (cs : ComponentState) (signal : Signal) :
    Option ComponentState :=
  let index := signal.state
  if cs.counts index = 0 then none
  else some { cs with
    state := none
    counts := Function.update cs.counts index (cs.counts index - 1)
    signals := Function.update cs.signals index (dec_or_remove (cs.signals index) signal) }

/-- The scan in the uncached branch of `ComponentState::state`: the first
severity, from highest to lowest, with a nonzero count, defaulting to
`Nominal`. -/
def ComponentState.computeState (cs : ComponentState) : Health :=
  (ALL_HEALTH_STATES.reverse.find? fun hs => decide (0 < cs.counts hs)).getD Health.Nominal

/-- `ComponentState::state`: return the cached severity when present,
otherwise compute it and cache it.  The interior-mutable `Cell` write is
modelled by returning the updated state alongside the severity. -/
def ComponentState.getState (cs : ComponentState) : Health × ComponentState :=
  match cs.state with
  | some state => (state, cs)
  | none =>
    let state := cs.computeState
    (state, { cs with state := some state })

/-- `Report` of `report.rs`, with `counts` and `signals` indexed by
severity. -/
structure Report where
  name : String
  state : Health
  counts : Health → Nat
  signals : Health → List (Signal × Nat)

/-- `ComponentState::make_report`: snapshot `state()` and `counts`; a
severity's signal list is copied only when its bit is set in the filter.
The cache write performed by the inner `state()` call is returned as the
second component. -/
def ComponentState.make_report (cs : ComponentState) (filter : ReportFilter) :
    Report × ComponentState :=
  let p := cs.getState
  ({ name := cs.name
     state := p.1
     counts := cs.counts
     signals := fun i =>
       if filter.bits &&& (1 <<< i.toIndex) ≠ 0 then cs.signals i else [] },
   p.2)

/-- `Debouncer` of `debouncer.rs`.  `tokio::time::Instant`s are modelled as
`Nat` ticks; the pinned `Sleep` timer is represented by its deadline. -/
structure Debouncer where
  debounce_delay : Nat
  last_fired : Nat
  timer_deadline : Nat
  timer_active : Bool

/-- `Debouncer::new`, constructed at instant `now`: `last_fired` is the
construction time, the timer starts as `sleep(0)` (deadline `now`) and is
inactive. -/
def Debouncer.new (now : Nat) (debounce_delay : Nat) : Debouncer :=
  ⟨debounce_delay, now, now, false⟩

/-- `Debouncer::trigger` called at instant `now` (`Instant::duration_since`
saturates at zero, hence the truncated `Nat` subtraction): fire immediately
when at least the delay has elapsed since `last_fired`; otherwise arm the
timer if it is not already armed. -/
def Debouncer.trigger (d : Debouncer) (now : Nat) : Debouncer × Bool :=
  let elapsed := now - d.last_fired
  if d.debounce_delay ≤ elapsed then
    ({ d with timer_active := false, last_fired := now }, true)
  else
    if d.timer_active = false then
      let delay := d.debounce_delay - elapsed
      ({ d with timer_deadline := now + delay, timer_active := true }, false)
    else
      (d, false)

/-- `DebounceReady::poll` at instant `now`: pending while the timer is
inactive; when active, the `Sleep` completes once `now` reaches the
deadline, clearing `timer_active` and setting `last_fired` to `now`. -/
def DebounceReady.poll (d : Debouncer) (now : Nat) : Debouncer × Bool :=
  if d.timer_active = false then
    (d, false)
  else if d.timer_deadline ≤ now then
    ({ d with timer_active := false, last_fired := now }, true)
  else
    (d, false)

/-- The two ways the worker loops interact with a `Debouncer`: a `trigger()`
call, or a poll of the `ready()` future. -/
inductive DebEvent where
  | trig
  | poll
deriving DecidableEq, Repr

/-- Dispatch one timed debouncer interaction. -/
def Debouncer.step (d : Debouncer) (now : Nat) : DebEvent → Debouncer × Bool
  | .trig => d.trigger now
  | .poll => DebounceReady.poll d now

/-- The instants at which a sequence of timed debouncer interactions fires
(`trigger()` returning true, or `ready()` completing). -/
def fireTimes (d : Debouncer) : List (Nat × DebEvent) → List Nat
  | [] => []
  | (t, e) :: rest =>
    let s := d.step t e
    if s.2 then t :: fireTimes s.1 rest else fireTimes s.1 rest

/-- Event instants are nondecreasing and start no earlier than `t0`
(monotonic clock reads in one worker task). -/
def Chronological (t0 : Nat) : List (Nat × DebEvent) → Prop
  | [] => True
  | (t, _) :: rest => t0 ≤ t ∧ Chronological t rest

/-- Consecutive elements of the list are at least `delay` apart. -/
def Spaced (delay : Nat) : List Nat → Prop
  | t1 :: t2 :: rest => t1 + delay ≤ t2 ∧ Spaced delay (t2 :: rest)
  | _ => True

/-- Mailbox messages of the component worker (`component.rs`), without the
reply channel of `GetReport`. -/
inductive ComponentMessage where
  | StartPublishing (signal : Signal)
  | ChangeHealth (old_signal new_signal : Signal)
  | StopPublishing (signal : Signal)
deriving DecidableEq

/-- `Publisher` of `publisher.rs`: the current signal plus the result of
upgrading the weak component mailbox handle (`true` when the component
worker is still alive). -/
structure Publisher where
  signal : Signal
  component_alive : Bool

/-- `Publisher::new`: attempt to send `StartPublishing(Signal::nominal())`
(dropped when the component is gone) and start with the nominal signal. -/
def Publisher.new (component_alive : Bool) : Publisher × Option ComponentMessage :=
  (⟨Signal.nominal, component_alive⟩,
   if component_alive then some (.StartPublishing Signal.nominal) else none)

/-- `Publisher::change_signal`: when the new signal differs from the current
one, swap it in and attempt to send `ChangeHealth(old, new)`; otherwise do
nothing.  The returned option is the mailbox message sent, if any. -/
def Publisher.change_signal (p : Publisher) (new_signal : Signal) :
    Publisher × Option ComponentMessage :=
  if new_signal ≠ p.signal then
    ({ p with signal := new_signal },
     if p.component_alive then some (.ChangeHealth p.signal new_signal) else none)
  else
    (p, none)

/-- `Publisher::publish`: construct the new signal and delegate to
`change_signal`. -/
def Publisher.publish (p : Publisher) (state : Health) (attributes : Multiset Attribute) :
    Publisher × Option ComponentMessage :=
  p.change_signal (Signal.new state attributes)

/-- The observable output of one `send_update` block of `component_worker`:
the value sent to the `watch` broadcast slot (if any) and whether
`ComponentHealthChanged` was sent to the aggregator. -/
structure WorkerUpdate where
  component_state : ComponentState
  health_state : Health
  broadcast : Option Health
  notified : Bool

/-- The `if send_update` block of `component_worker` (component.rs lines
152-166), for an iteration in which `send_update` is set: recompute
`new_state = component_state.state()` and publish plus notify the
aggregator unless the new state and the previously published state are both
`Nominal`.  `aggregator_alive` is the result of upgrading the weak
aggregator handle. -/
def component_worker_update (cs : ComponentState) (health_state : Health)
    (aggregator_alive : Bool) : WorkerUpdate :=
  if (cs.getState).1 ≠ health_state ∨ (cs.getState).1 ≠ Health.Nominal then
    ⟨(cs.getState).2, (cs.getState).1, some (cs.getState).1, aggregator_alive⟩
  else
    ⟨(cs.getState).2, health_state, none, false⟩

/-- `get_aggregate_health_state` of `aggregator.rs`: fold over the monitors'
current health values, keeping the most severe, starting from `Nominal`. -/
def get_aggregate_health_state (monitors : List Health) : Health :=
  monitors.foldl (fun state component_state =>
    if state < component_state then component_state else state) Health.Nominal

/-- The `if send_update` tail of `aggregator_worker`: when `send_update` is
set, the aggregate state is sent to the broadcast slot unconditionally;
otherwise nothing is sent. -/
def aggregator_update_step (send_update : Bool) (monitors : List Health) : Option Health :=
  if send_update then some (get_aggregate_health_state monitors) else none

/-- `Reports` of `reports.rs`: the gathered list of component reports. -/
structure Reports where
  reports : List Report

/-- `Reports::new`. -/
def Reports.new (reports : List Report) : Reports := ⟨reports⟩

/-- The report-gathering loop of `AggregatorMessage::GetReport`: collect the
`Some` results of the per-monitor report requests, in order. -/
def gatherReports (replies : List (Option Report)) : List Report :=
  replies.filterMap id

/-- `Component::report`: send `GetReport` and await the reply; `send_ok` is
the result of the mailbox send, `reply` the result of awaiting the oneshot
reply channel (`none` when it was dropped).  Returns `none` instead of
panicking in either failure case. -/
def Component.report (send_ok : Bool) (reply : Option Report) : Option Report :=
  if send_ok then reply else none

/-- `Aggregator::reports`: same shape as `Component::report`, for the
aggregator's `GetReport` request. -/
def Aggregator.reports (send_ok : Bool) (reply : Option Reports) : Option Reports :=
  if send_ok then reply else none

/-- A publisher-signal mutation processed by the component worker: the
`StartPublishing`/`StopPublishing` halves of the mailbox vocabulary
(`ChangeHealth` is a remove followed by an add). -/
inductive SignalOp where
  | add (signal : Signal)
  | remove (signal : Signal)

/-- Apply one mutation to a `ComponentState`; a remove propagates the
underflow failure. -/
def applyOp (cs : ComponentState) : SignalOp → Option ComponentState
  | .add s => some (cs.add_publisher_signal s)
  | .remove s => cs.remove_publisher_signal s

/-- Apply a sequence of mutations left to right. -/
def applyOps (cs : ComponentState) : List SignalOp → Option ComponentState
  | [] => some cs
  | op :: rest => do applyOps (← applyOp cs op) rest

/-- Sum of the multiplicities of one signal bucket (`Σ signals[s].values()`). -/
def sumValues (l : List (Signal × Nat)) : Nat :=
  (l.map Prod.snd).sum

/-- The multiplicity recorded for a signal in a bucket (0 when absent). -/
def lookupVal : List (Signal × Nat) → Signal → Nat
  | [], _ => 0
  | (k, v) :: rest, s => if k = s then v else lookupVal rest s

/-- The live multiplicity of a signal in a component state. -/
def liveOf (cs : ComponentState) (s : Signal) : Nat :=
  lookupVal (cs.signals s.state) s

/-- Every remove in the sequence is matched by an earlier unconsumed add of
an equal signal: tracked by the running multiset of live signals. -/
def BalancedOps (live : Signal → Nat) : List SignalOp → Prop
  | [] => True
  | .add s :: rest => BalancedOps (Function.update live s (live s + 1)) rest
  | .remove s :: rest => 1 ≤ live s ∧ BalancedOps (Function.update live s (live s - 1)) rest

/-- Well-formedness of a `ComponentState`'s bookkeeping: counts match the
bucket sums, no zero multiplicities, every bucket holds only signals of its
own severity, and bucket keys are distinct (`HashMap` keys). -/
def StateWF (cs : ComponentState) : Prop :=
  ∀ h : Health,
    cs.counts h = sumValues (cs.signals h)
    ∧ (∀ p ∈ cs.signals h, p.2 ≠ 0)
    ∧ (∀ p ∈ cs.signals h, p.1.state = h)
    ∧ ((cs.signals h).map Prod.fst).Nodup

/-- The between-fires invariant of a `Debouncer`: whenever the timer is
armed, its deadline is at least one full delay after the last fire. -/
def DebInv (d : Debouncer) : Prop :=
  d.timer_active = true → d.last_fired + d.debounce_delay ≤ d.timer_deadline

theorem Health.le_def (a b : Health) : (a ≤ b) = (a.toIndex ≤ b.toIndex) := rfl

theorem Health.lt_def (a b : Health) : (a < b) = (a.toIndex < b.toIndex) := rfl

/-- Bit `i` of `n` is set iff masking with `1 <<< i` is nonzero, the test
used by `make_report`. -/
theorem and_shift_ne_zero_iff_testBit (n i : Nat) :
    (n &&& (1 <<< i) ≠ 0) ↔ n.testBit i = true := by
  rw [Nat.shiftLeft_eq, one_mul, Nat.and_two_pow]
  cases h : n.testBit i <;> simp [h]

/-- C9: a `report()`/`reports()` call whose target worker has exited (the
mailbox send fails, or the oneshot reply channel is dropped) evaluates to
`none` — there is no panicking branch — and when the send succeeds and the
worker replies, the reply is returned as `some`. -/
theorem report_requests_none_when_target_gone
    (send_ok : Bool) (reply : Option Report) (r : Report)
    (reply2 : Option Reports) (rs : Reports) :
    Component.report false reply = none
    ∧ Component.report send_ok none = none
    ∧ Component.report true (some r) = some r
    ∧ Aggregator.reports false reply2 = none
    ∧ Aggregator.reports send_ok none = none
    ∧ Aggregator.reports true (some rs) = some rs := by
  refine ⟨rfl, ?_, rfl, rfl, ?_, rfl⟩ <;> cases send_ok <;> rfl

/-- C8: publishing a health and attribute set whose constructed `Signal`
equals the publisher's current signal is a no-op (no mailbox message, signal
unchanged); in particular the second of two identical `publish` calls sends
nothing. -/
theorem publish_identical_signal_noop (p : Publisher) (state : Health)
    (attributes : Multiset Attribute)
    (h : Signal.new state attributes = p.signal) :
    p.publish state attributes = (p, none)
    ∧ (p.publish state attributes).1.publish state attributes
        = ((p.publish state attributes).1, none) := by
  have hfirst : p.publish state attributes = (p, none) := by
    unfold Publisher.publish Publisher.change_signal
    simp [h]
  refine ⟨hfirst, ?_⟩
  rw [hfirst]
  unfold Publisher.publish Publisher.change_signal
  simp [h]

/-- C1: in a component-worker iteration with `send_update` set, the freshly
computed state is sent to the broadcast slot and the aggregator is notified
(when still alive) iff the new state differs from the last published health
or is not `Nominal`; equivalently, the only suppressed publication is a
`Nominal` following a published `Nominal`. -/
theorem component_worker_publish_iff (cs : ComponentState) (health_state : Health)
    (aggregator_alive : Bool) :
    ((component_worker_update cs health_state aggregator_alive).broadcast
        = some (cs.getState).1
      ∧ (component_worker_update cs health_state aggregator_alive).notified
        = aggregator_alive
      ∧ (component_worker_update cs health_state aggregator_alive).health_state
        = (cs.getState).1
      ↔ ((cs.getState).1 ≠ health_state ∨ (cs.getState).1 ≠ Health.Nominal))
    ∧ ((component_worker_update cs health_state aggregator_alive).broadcast = none
      ↔ ((cs.getState).1 = Health.Nominal ∧ health_state = Health.Nominal)) := by
  unfold component_worker_update
  by_cases hc : (cs.getState).1 ≠ health_state ∨ (cs.getState).1 ≠ Health.Nominal
  · rw [if_pos hc]
    constructor
    · exact iff_of_true ⟨rfl, rfl, rfl⟩ hc
    · refine iff_of_false (by simp) ?_
      intro hcon
      rcases hc with hne | hne
      · exact hne (hcon.1.trans hcon.2.symm)
      · exact hne hcon.1
  · rw [if_neg hc]
    push_neg at hc
    obtain ⟨h1, h2⟩ := hc
    constructor
    · refine iff_of_false ?_ ?_
      · intro hcon
        exact Option.noConfusion hcon.1
      · intro hcon
        rcases hcon with hne | hne
        · exact hne h1
        · exact hne h2
    · exact iff_of_true rfl ⟨h2, h1.symm.trans h2⟩

/-- C6: a `trigger()` call at a monotone instant fires, resets `last_fired`
and disarms the timer when at least the delay has elapsed; otherwise it
returns false and, when the timer was not armed, arms it at exactly
`last_fired + delay` (the code's `now + (delay - elapsed)`), leaving an
already-armed timer untouched. -/
theorem debouncer_trigger_spec (d : Debouncer) (now : Nat)
    (hmono : d.last_fired ≤ now) :
    (d.debounce_delay ≤ now - d.last_fired →
      (d.trigger now).2 = true
      ∧ (d.trigger now).1.last_fired = now
      ∧ (d.trigger now).1.timer_active = false)
    ∧ (now - d.last_fired < d.debounce_delay →
      (d.trigger now).2 = false
      ∧ (d.timer_active = false →
          (d.trigger now).1.timer_active = true
          ∧ (d.trigger now).1.timer_deadline = d.last_fired + d.debounce_delay
          ∧ (d.trigger now).1.last_fired = d.last_fired)
      ∧ (d.timer_active = true → (d.trigger now).1 = d)) := by
  constructor
  · intro hge
    simp [Debouncer.trigger, hge]
  · intro hlt
    have hnot : ¬ d.debounce_delay ≤ now - d.last_fired := by omega
    cases hta : d.timer_active with
    | false =>
      refine ⟨?_, ?_, ?_⟩
      · simp [Debouncer.trigger, hnot, hta]
      · intro _
        refine ⟨?_, ?_, ?_⟩ <;> simp [Debouncer.trigger, hnot, hta]
        omega
      · intro hcon
        exact Bool.noConfusion hcon
    | true =>
      refine ⟨?_, ?_, ?_⟩
      · simp [Debouncer.trigger, hnot, hta]
      · intro hcon
        exact Bool.noConfusion hcon
      · intro _
        simp [Debouncer.trigger, hnot, hta]

/-- The severity fold of `get_aggregate_health_state` computes an upper
bound of the list that is either the initial accumulator or an element. -/
theorem health_foldl_spec (l : List Health) (a : Health) :
    a ≤ l.foldl (fun state component_state =>
        if state < component_state then component_state else state) a
    ∧ (∀ h ∈ l, h ≤ l.foldl (fun state component_state =>
        if state < component_state then component_state else state) a)
    ∧ (l.foldl (fun state component_state =>
        if state < component_state then component_state else state) a = a
      ∨ l.foldl (fun state component_state =>
        if state < component_state then component_state else state) a ∈ l) := by
  induction l generalizing a with
  | nil => exact ⟨Nat.le_refl _, by simp, Or.inl rfl⟩
  | cons x xs ih =>
    obtain ⟨ih1, ih2, ih3⟩ := ih (if a < x then x else a)
    simp only [List.foldl_cons]
    refine ⟨?_, ?_, ?_⟩
    · by_cases hax : a < x
      · simp only [if_pos hax] at ih1 ⊢
        rw [Health.le_def] at ih1 ⊢
        rw [Health.lt_def] at hax
        omega
      · simpa only [if_neg hax] using ih1
    · intro h hmem
      rcases List.mem_cons.mp hmem with rfl | hmem
      · by_cases hax : a < h
        · simpa only [if_pos hax] using ih1
        · simp only [if_neg hax] at ih1 ⊢
          rw [Health.le_def] at ih1 ⊢
          rw [Health.lt_def] at hax
          omega
      · exact ih2 h hmem
    · rcases ih3 with heq | hmem
      · rw [heq]
        by_cases hax : a < x
        · right
          simp [if_pos hax]
        · left
          simp [if_neg hax]
      · right
        exact List.mem_cons_of_mem _ hmem

/-- C5: in an aggregator-worker iteration with `send_update` set, the value
sent to the overall broadcast slot is exactly `get_aggregate_health_state`,
the maximum of the monitors' current health states (`Nominal` for an empty
list), sent unconditionally on every debounced trigger — there is no
suppression of repeated values — and nothing is sent otherwise. -/
theorem aggregator_publishes_unsuppressed_max (monitors : List Health) :
    aggregator_update_step true monitors = some (get_aggregate_health_state monitors)
    ∧ aggregator_update_step false monitors = none
    ∧ (∀ h ∈ monitors, h ≤ get_aggregate_health_state monitors)
    ∧ (get_aggregate_health_state monitors = Health.Nominal
        ∨ get_aggregate_health_state monitors ∈ monitors)
    ∧ get_aggregate_health_state [] = Health.Nominal := by
  obtain ⟨_, h2, h3⟩ := health_foldl_spec monitors Health.Nominal
  exact ⟨rfl, rfl, h2, h3, rfl⟩

/-- C4: `make_report` snapshots the full counts array regardless of the
filter, reports `state()` as the component state, and copies the signal
bucket of a severity exactly when the severity's bit is set in the filter,
yielding the empty list otherwise. -/
theorem make_report_spec (cs : ComponentState) (filter : ReportFilter) :
    ((cs.make_report filter).1.counts = cs.counts)
    ∧ ((cs.make_report filter).1.state = (cs.getState).1)
    ∧ ((cs.make_report filter).1.name = cs.name)
    ∧ (∀ i : Health,
        (cs.make_report filter).1.signals i
          = if filter.bits.testBit i.toIndex = true then cs.signals i else [])
    ∧ ((cs.make_report filter).2 = (cs.getState).2) := by
  refine ⟨rfl, rfl, rfl, ?_, rfl⟩
  intro i
  show (if filter.bits &&& (1 <<< i.toIndex) ≠ 0 then cs.signals i else []) = _
  by_cases hb : filter.bits.testBit i.toIndex = true
  · rw [if_pos ((and_shift_ne_zero_iff_testBit _ _).mpr hb), if_pos hb]
  · rw [if_neg (fun hc => hb ((and_shift_ne_zero_iff_testBit _ _).mp hc)), if_neg hb]

/-- C10: with at least one live signal counted at the removed signal's
severity, `remove_publisher_signal` cannot underflow (its failure branch is
unreachable), and `dec_or_remove` on a map not containing the key leaves
the map unchanged, so only the counts decrement can fail on an unmatched
remove. -/
theorem remove_publisher_signal_no_underflow (cs : ComponentState) (s : Signal)
    (l : List (Signal × Nat))
    (hcount : 1 ≤ cs.counts s.state)
    (habsent : ∀ p ∈ l, p.1 ≠ s) :
    (cs.remove_publisher_signal s).isSome = true ∧ dec_or_remove l s = l := by
  constructor
  · unfold ComponentState.remove_publisher_signal
    rw [if_neg (by omega)]
    rfl
  · clear hcount
    induction l with
    | nil => rfl
    | cons hd tl ih =>
      obtain ⟨k, v⟩ := hd
      have hk : k ≠ s := habsent (k, v) (List.mem_cons_self _ _)
      rw [dec_or_remove, if_neg hk,
        ih fun p hp => habsent p (List.mem_cons_of_mem _ hp)]

/-- The severity scan of `ComponentState::state` returns the highest
severity with a nonzero count, or `Nominal` when every count is zero. -/
theorem computeState_is_highest (cs : ComponentState) :
    (0 < cs.counts cs.computeState
      ∧ ∀ g, 0 < cs.counts g → g ≤ cs.computeState)
    ∨ (cs.computeState = Health.Nominal ∧ ∀ g, cs.counts g = 0) := by
  have hrev : ALL_HEALTH_STATES.reverse
      = [Health.Unrecoverable, Health.Down, Health.Critical,
         Health.Degraded, Health.Nominal] := rfl
  unfold ComponentState.computeState
  rw [hrev]
  by_cases h4 : 0 < cs.counts Health.Unrecoverable
  · left
    simp only [List.find?, decide_eq_true h4, Option.getD_some]
    exact ⟨h4, fun g _ => by cases g <;> decide⟩
  · by_cases h3 : 0 < cs.counts Health.Down
    · left
      simp only [List.find?, decide_eq_false h4, decide_eq_true h3, Option.getD_some]
      exact ⟨h3, fun g hg => by cases g <;> first | decide | omega⟩
    · by_cases h2 : 0 < cs.counts Health.Critical
      · left
        simp only [List.find?, decide_eq_false h4, decide_eq_false h3,
          decide_eq_true h2, Option.getD_some]
        exact ⟨h2, fun g hg => by cases g <;> first | decide | omega⟩
      · by_cases h1 : 0 < cs.counts Health.Degraded
        · left
          simp only [List.find?, decide_eq_false h4, decide_eq_false h3,
            decide_eq_false h2, decide_eq_true h1, Option.getD_some]
          exact ⟨h1, fun g hg => by cases g <;> first | decide | omega⟩
        · by_cases h0 : 0 < cs.counts Health.Nominal
          · left
            simp only [List.find?, decide_eq_false h4, decide_eq_false h3,
              decide_eq_false h2, decide_eq_false h1, decide_eq_true h0, Option.getD_some]
            exact ⟨h0, fun g hg => by cases g <;> first | decide | omega⟩
          · right
            simp only [List.find?, decide_eq_false h4, decide_eq_false h3,
              decide_eq_false h2, decide_eq_false h1, decide_eq_false h0, Option.getD_none]
            exact ⟨by trivial, fun g => by cases g <;> omega⟩

/-- C2: `state()` returns the highest severity with a nonzero count (or
`Nominal` when all five counts are zero) and caches it; a present cached
value (which, for states produced by the API, is the previously computed
state) is returned unchanged, with the component state untouched. -/
theorem componentState_state_spec (cs : ComponentState)
    (hcache : cs.state = none ∨ cs.state = some cs.computeState) :
    ((cs.getState).1 = cs.computeState)
    ∧ ((cs.getState).2.state = some cs.computeState)
    ∧ ((cs.getState).2.counts = cs.counts)
    ∧ ((cs.getState).2.signals = cs.signals)
    ∧ (∀ h0, cs.state = some h0 → cs.getState = (h0, cs))
    ∧ ((0 < cs.counts (cs.getState).1
        ∧ ∀ g, 0 < cs.counts g → g ≤ (cs.getState).1)
      ∨ ((cs.getState).1 = Health.Nominal ∧ ∀ g, cs.counts g = 0)) := by
  have hh := computeState_is_highest cs
  rcases hcache with hnone | hsome
  · have hg : cs.getState = (cs.computeState, { cs with state := some cs.computeState }) := by
      unfold ComponentState.getState
      rw [hnone]
    rw [hg]
    refine ⟨rfl, rfl, rfl, rfl, ?_, hh⟩
    intro h0 hcon
    rw [hnone] at hcon
    exact Option.noConfusion hcon
  · have hg : cs.getState = (cs.computeState, cs) := by
      unfold ComponentState.getState
      rw [hsome]
    rw [hg]
    refine ⟨rfl, ?_, rfl, rfl, ?_, hh⟩
    · show cs.state = some cs.computeState
      exact hsome
    · intro h0 hcon
      rw [hsome] at hcon
      rw [Option.some_inj.mp hcon]

/-- `bumpEntry` raises the bucket's multiplicity sum by exactly one. -/
theorem bumpEntry_sumValues (l : List (Signal × Nat)) (s : Signal) :
    sumValues (bumpEntry l s) = sumValues l + 1 := by
  induction l with
  | nil => rfl
  | cons hd tl ih =>
    obtain ⟨k, v⟩ := hd
    by_cases hk : k = s
    · simp [bumpEntry, hk, sumValues]
      omega
    · simp [bumpEntry, hk, sumValues] at ih ⊢
      omega

/-- `bumpEntry` preserves positivity of every multiplicity. -/
theorem bumpEntry_values_pos (l : List (Signal × Nat)) (s : Signal)
    (h : ∀ p ∈ l, p.2 ≠ 0) : ∀ p ∈ bumpEntry l s, p.2 ≠ 0 := by
  induction l with
  | nil =>
    intro p hp
    rw [bumpEntry] at hp
    rcases List.mem_singleton.mp hp with rfl
    exact one_ne_zero
  | cons hd tl ih =>
    obtain ⟨k, v⟩ := hd
    intro p hp
    by_cases hk : k = s
    · rw [bumpEntry, if_pos hk] at hp
      rcases List.mem_cons.mp hp with rfl | hp
      · omega
      · exact h p (List.mem_cons_of_mem _ hp)
    · rw [bumpEntry, if_neg hk] at hp
      rcases List.mem_cons.mp hp with rfl | hp
      · exact h (k, v) (List.mem_cons_self _ _)
      · exact ih (fun q hq => h q (List.mem_cons_of_mem _ hq)) p hp

/-- Every key of `bumpEntry l s` is a key of `l` or is `s` itself. -/
theorem mem_keys_bumpEntry (l : List (Signal × Nat)) (s t : Signal) :
    t ∈ (bumpEntry l s).map Prod.fst ↔ t ∈ l.map Prod.fst ∨ t = s := by
  induction l with
  | nil => simp [bumpEntry]
  | cons hd tl ih =>
    obtain ⟨k, v⟩ := hd
    by_cases hk : k = s
    · subst hk
      simp [bumpEntry]
      tauto
    · rw [bumpEntry, if_neg hk]
      simp only [List.map_cons, List.mem_cons, ih]
      tauto

/-- `bumpEntry` keeps all keys in the severity bucket of their signal. -/
theorem bumpEntry_keys_state (l : List (Signal × Nat)) (s : Signal) (h : Health)
    (hst : s.state = h) (hl : ∀ p ∈ l, p.1.state = h) :
    ∀ p ∈ bumpEntry l s, p.1.state = h := by
  induction l with
  | nil =>
    intro p hp
    rw [bumpEntry] at hp
    rcases List.mem_singleton.mp hp with rfl
    exact hst
  | cons hd tl ih =>
    obtain ⟨k, v⟩ := hd
    intro p hp
    by_cases hk : k = s
    · rw [bumpEntry, if_pos hk] at hp
      rcases List.mem_cons.mp hp with rfl | hp
      · exact hl (k, v) (List.mem_cons_self _ _)
      · exact hl p (List.mem_cons_of_mem _ hp)
    · rw [bumpEntry, if_neg hk] at hp
      rcases List.mem_cons.mp hp with rfl | hp
      · exact hl (k, v) (List.mem_cons_self _ _)
      · exact ih (fun q hq => hl q (List.mem_cons_of_mem _ hq)) p hp

/-- `bumpEntry` preserves distinctness of bucket keys. -/
theorem bumpEntry_keys_nodup (l : List (Signal × Nat)) (s : Signal)
    (h : (l.map Prod.fst).Nodup) : ((bumpEntry l s).map Prod.fst).Nodup := by
  induction l with
  | nil => simp [bumpEntry]
  | cons hd tl ih =>
    obtain ⟨k, v⟩ := hd
    simp only [List.map_cons, List.nodup_cons] at h
    by_cases hk : k = s
    · rw [bumpEntry, if_pos hk]
      simp only [List.map_cons, List.nodup_cons]
      exact h
    · rw [bumpEntry, if_neg hk]
      simp only [List.map_cons, List.nodup_cons]
      refine ⟨?_, ih h.2⟩
      intro hmem
      rcases (mem_keys_bumpEntry tl s k).mp hmem with hin | rfl
      · exact h.1 hin
      · exact hk rfl

/-- `bumpEntry` increments the stored multiplicity of the bumped key. -/
theorem lookupVal_bumpEntry_self (l : List (Signal × Nat)) (s : Signal) :
    lookupVal (bumpEntry l s) s = lookupVal l s + 1 := by
  induction l with
  | nil => simp [bumpEntry, lookupVal]
  | cons hd tl ih =>
    obtain ⟨k, v⟩ := hd
    by_cases hk : k = s
    · rw [bumpEntry, if_pos hk, lookupVal, if_pos hk, lookupVal, if_pos hk]
    · rw [bumpEntry, if_neg hk, lookupVal, if_neg hk, lookupVal, if_neg hk, ih]

/-- `bumpEntry` leaves other keys' multiplicities unchanged. -/
theorem lookupVal_bumpEntry_ne (l : List (Signal × Nat)) (s t : Signal)
    (hts : t ≠ s) : lookupVal (bumpEntry l s) t = lookupVal l t := by
  induction l with
  | nil =>
    have hst : ¬ (s = t) := fun h => hts h.symm
    simp only [bumpEntry, lookupVal, if_neg hst]
  | cons hd tl ih =>
    obtain ⟨k, v⟩ := hd
    by_cases hk : k = s
    · have hkt : ¬ k = t := fun h => hts (h.symm.trans hk)
      rw [bumpEntry, if_pos hk, lookupVal, if_neg hkt, lookupVal, if_neg hkt]
    · by_cases hkt : k = t
      · rw [bumpEntry, if_neg hk, lookupVal, if_pos hkt, lookupVal, if_pos hkt]
      · rw [bumpEntry, if_neg hk, lookupVal, if_neg hkt, lookupVal, if_neg hkt, ih]

/-- A key's multiplicity is at most the bucket's sum. -/
theorem lookupVal_le_sumValues (l : List (Signal × Nat)) (s : Signal) :
    lookupVal l s ≤ sumValues l := by
  induction l with
  | nil => simp [lookupVal, sumValues]
  | cons hd tl ih =>
    obtain ⟨k, v⟩ := hd
    by_cases hk : k = s
    · rw [lookupVal, if_pos hk]
      simp [sumValues]
    · rw [lookupVal, if_neg hk]
      simp only [sumValues, List.map_cons, List.sum_cons] at ih ⊢
      omega

/-- An absent key has multiplicity zero. -/
theorem lookupVal_eq_zero_of_not_mem (l : List (Signal × Nat)) (s : Signal)
    (h : s ∉ l.map Prod.fst) : lookupVal l s = 0 := by
  induction l with
  | nil => rfl
  | cons hd tl ih =>
    obtain ⟨k, v⟩ := hd
    simp only [List.map_cons, List.mem_cons] at h
    push_neg at h
    rw [lookupVal, if_neg (fun hk => h.1 hk.symm)]
    exact ih h.2

/-- `dec_or_remove` of a present key lowers the bucket sum by exactly one. -/
theorem dec_or_remove_sumValues (l : List (Signal × Nat)) (s : Signal)
    (hpos : 1 ≤ lookupVal l s) :
    sumValues (dec_or_remove l s) + 1 = sumValues l := by
  induction l with
  | nil => simp [lookupVal] at hpos
  | cons hd tl ih =>
    obtain ⟨k, v⟩ := hd
    by_cases hk : k = s
    · rw [lookupVal, if_pos hk] at hpos
      rw [dec_or_remove, if_pos hk]
      by_cases hv : v = 1
      · rw [if_pos hv]
        simp [sumValues, hv]
        omega
      · rw [if_neg hv]
        simp [sumValues]
        omega
    · rw [lookupVal, if_neg hk] at hpos
      rw [dec_or_remove, if_neg hk]
      simp only [sumValues, List.map_cons, List.sum_cons] at ih ⊢
      have := ih hpos
      omega

/-- `dec_or_remove` preserves positivity of every multiplicity. -/
theorem dec_or_remove_values_pos (l : List (Signal × Nat)) (s : Signal)
    (h : ∀ p ∈ l, p.2 ≠ 0) : ∀ p ∈ dec_or_remove l s, p.2 ≠ 0 := by
  induction l with
  | nil =>
    intro p hp
    rw [dec_or_remove] at hp
    exact absurd hp (List.not_mem_nil p)
  | cons hd tl ih =>
    obtain ⟨k, v⟩ := hd
    intro p hp
    by_cases hk : k = s
    · rw [dec_or_remove, if_pos hk] at hp
      by_cases hv : v = 1
      · rw [if_pos hv] at hp
        exact h p (List.mem_cons_of_mem _ hp)
      · rw [if_neg hv] at hp
        rcases List.mem_cons.mp hp with rfl | hp
        · have hv0 : v ≠ 0 := h (k, v) (List.mem_cons_self _ _)
          simp only []
          omega
        · exact h p (List.mem_cons_of_mem _ hp)
    · rw [dec_or_remove, if_neg hk] at hp
      rcases List.mem_cons.mp hp with rfl | hp
      · exact h (k, v) (List.mem_cons_self _ _)
      · exact ih (fun q hq => h q (List.mem_cons_of_mem _ hq)) p hp

/-- `dec_or_remove` keeps all keys in the severity bucket of their signal. -/
theorem dec_or_remove_keys_state (l : List (Signal × Nat)) (s : Signal) (h : Health)
    (hl : ∀ p ∈ l, p.1.state = h) : ∀ p ∈ dec_or_remove l s, p.1.state = h := by
  induction l with
  | nil =>
    intro p hp
    rw [dec_or_remove] at hp
    exact absurd hp (List.not_mem_nil p)
  | cons hd tl ih =>
    obtain ⟨k, v⟩ := hd
    intro p hp
    by_cases hk : k = s
    · rw [dec_or_remove, if_pos hk] at hp
      by_cases hv : v = 1
      · rw [if_pos hv] at hp
        exact hl p (List.mem_cons_of_mem _ hp)
      · rw [if_neg hv] at hp
        rcases List.mem_cons.mp hp with rfl | hp
        · exact hl (k, v) (List.mem_cons_self _ _)
        · exact hl p (List.mem_cons_of_mem _ hp)
    · rw [dec_or_remove, if_neg hk] at hp
      rcases List.mem_cons.mp hp with rfl | hp
      · exact hl (k, v) (List.mem_cons_self _ _)
      · exact ih (fun q hq => hl q (List.mem_cons_of_mem _ hq)) p hp

/-- `dec_or_remove` never introduces new keys. -/
theorem mem_keys_dec_or_remove (l : List (Signal × Nat)) (s t : Signal)
    (h : t ∈ (dec_or_remove l s).map Prod.fst) : t ∈ l.map Prod.fst := by
  induction l with
  | nil =>
    rw [dec_or_remove] at h
    exact absurd h (List.not_mem_nil t)
  | cons hd tl ih =>
    obtain ⟨k, v⟩ := hd
    by_cases hk : k = s
    · rw [dec_or_remove, if_pos hk] at h
      by_cases hv : v = 1
      · rw [if_pos hv] at h
        exact List.mem_cons_of_mem _ h
      · rw [if_neg hv] at h
        simp only [List.map_cons, List.mem_cons] at h ⊢
        tauto
    · rw [dec_or_remove, if_neg hk] at h
      simp only [List.map_cons, List.mem_cons] at h ⊢
      rcases h with rfl | h
      · tauto
      · exact Or.inr (ih h)

/-- `dec_or_remove` preserves distinctness of bucket keys. -/
theorem dec_or_remove_keys_nodup (l : List (Signal × Nat)) (s : Signal)
    (h : (l.map Prod.fst).Nodup) : ((dec_or_remove l s).map Prod.fst).Nodup := by
  induction l with
  | nil => simp [dec_or_remove]
  | cons hd tl ih =>
    obtain ⟨k, v⟩ := hd
    simp only [List.map_cons, List.nodup_cons] at h
    by_cases hk : k = s
    · rw [dec_or_remove, if_pos hk]
      by_cases hv : v = 1
      · rw [if_pos hv]
        exact h.2
      · rw [if_neg hv]
        simp only [List.map_cons, List.nodup_cons]
        exact h
    · rw [dec_or_remove, if_neg hk]
      simp only [List.map_cons, List.nodup_cons]
      exact ⟨fun hmem => h.1 (mem_keys_dec_or_remove tl s k hmem), ih h.2⟩

/-- With distinct keys, `dec_or_remove` decrements the removed key's
multiplicity. -/
theorem lookupVal_dec_or_remove_self (l : List (Signal × Nat)) (s : Signal)
    (hnd : (l.map Prod.fst).Nodup) :
    lookupVal (dec_or_remove l s) s = lookupVal l s - 1 := by
  induction l with
  | nil => rfl
  | cons hd tl ih =>
    obtain ⟨k, v⟩ := hd
    simp only [List.map_cons, List.nodup_cons] at hnd
    by_cases hk : k = s
    · rw [dec_or_remove, if_pos hk, lookupVal, if_pos hk]
      by_cases hv : v = 1
      · rw [if_pos hv, hv]
        subst hk
        exact lookupVal_eq_zero_of_not_mem tl k hnd.1
      · rw [if_neg hv, lookupVal, if_pos hk]
    · rw [dec_or_remove, if_neg hk, lookupVal, if_neg hk, lookupVal, if_neg hk]
      exact ih hnd.2

/-- `dec_or_remove` leaves other keys' multiplicities unchanged. -/
theorem lookupVal_dec_or_remove_ne (l : List (Signal × Nat)) (s t : Signal)
    (hts : t ≠ s) : lookupVal (dec_or_remove l s) t = lookupVal l t := by
  induction l with
  | nil => rfl
  | cons hd tl ih =>
    obtain ⟨k, v⟩ := hd
    by_cases hk : k = s
    · have hkt : ¬ k = t := fun h => hts (h.symm.trans hk)
      rw [dec_or_remove, if_pos hk, lookupVal, if_neg hkt]
      by_cases hv : v = 1
      · rw [if_pos hv]
      · rw [if_neg hv, lookupVal, if_neg hkt]
    · by_cases hkt : k = t
      · rw [dec_or_remove, if_neg hk, lookupVal, if_pos hkt, lookupVal, if_pos hkt]
      · rw [dec_or_remove, if_neg hk, lookupVal, if_neg hkt, lookupVal, if_neg hkt, ih]

/-- `add_publisher_signal` preserves the bookkeeping well-formedness. -/
theorem add_publisher_signal_WF (cs : ComponentState) (s : Signal)
    (hwf : StateWF cs) : StateWF (cs.add_publisher_signal s) := by
  intro h
  obtain ⟨hsum, hpos, hst, hnd⟩ := hwf h
  unfold ComponentState.add_publisher_signal
  by_cases hh : h = s.state
  · subst hh
    simp only [Function.update_same]
    exact ⟨by rw [bumpEntry_sumValues, hsum],
      bumpEntry_values_pos _ _ hpos,
      bumpEntry_keys_state _ _ _ rfl hst,
      bumpEntry_keys_nodup _ _ hnd⟩
  · simp only [Function.update_noteq hh]
    exact ⟨hsum, hpos, hst, hnd⟩

/-- `add_publisher_signal` increments the added signal's live multiplicity. -/
theorem add_publisher_signal_liveOf_self (cs : ComponentState) (s : Signal) :
    liveOf (cs.add_publisher_signal s) s = liveOf cs s + 1 := by
  unfold liveOf ComponentState.add_publisher_signal
  simp only [Function.update_same]
  exact lookupVal_bumpEntry_self _ _

/-- `add_publisher_signal` leaves other signals' live multiplicities
unchanged. -/
theorem add_publisher_signal_liveOf_ne (cs : ComponentState) (s t : Signal)
    (hts : t ≠ s) : liveOf (cs.add_publisher_signal s) t = liveOf cs t := by
  unfold liveOf ComponentState.add_publisher_signal
  by_cases hh : t.state = s.state
  · rw [hh]
    simp only [Function.update_same]
    exact lookupVal_bumpEntry_ne _ _ _ hts
  · simp only [Function.update_noteq hh]

/-- On a well-formed state with a live occurrence of the signal,
`remove_publisher_signal` succeeds, stays well-formed, and decrements
exactly that signal's live multiplicity. -/
theorem remove_publisher_signal_success (cs : ComponentState) (s : Signal)
    (hwf : StateWF cs) (hlive : 1 ≤ liveOf cs s) :
    ∃ cs', cs.remove_publisher_signal s = some cs'
      ∧ StateWF cs'
      ∧ liveOf cs' s = liveOf cs s - 1
      ∧ (∀ t, t ≠ s → liveOf cs' t = liveOf cs t) := by
  obtain ⟨hsum, hpos, hst, hnd⟩ := hwf s.state
  have hcount : cs.counts s.state ≠ 0 := by
    have h1 := lookupVal_le_sumValues (cs.signals s.state) s
    unfold liveOf at hlive
    omega
  refine ⟨_, by rw [ComponentState.remove_publisher_signal, if_neg hcount], ?_, ?_, ?_⟩
  · intro h
    obtain ⟨hsum2, hpos2, hst2, hnd2⟩ := hwf h
    by_cases hh : h = s.state
    · subst hh
      simp only [Function.update_same]
      refine ⟨?_, dec_or_remove_values_pos _ _ hpos2,
        dec_or_remove_keys_state _ _ _ hst2,
        dec_or_remove_keys_nodup _ _ hnd2⟩
      have := dec_or_remove_sumValues (cs.signals s.state) s
        (by unfold liveOf at hlive; exact hlive)
      omega
    · simp only [Function.update_noteq hh]
      exact ⟨hsum2, hpos2, hst2, hnd2⟩
  · unfold liveOf
    simp only [Function.update_same]
    exact lookupVal_dec_or_remove_self _ _ hnd
  · intro t hts
    unfold liveOf
    by_cases hh : t.state = s.state
    · rw [hh]
      simp only [Function.update_same]
      exact lookupVal_dec_or_remove_ne _ _ _ hts
    · simp only [Function.update_noteq hh]

/-- A fresh `ComponentState` is well-formed. -/
theorem new_StateWF (name : String) : StateWF (ComponentState.new name) := by
  intro h
  refine ⟨rfl, ?_, ?_, ?_⟩ <;> simp [ComponentState.new]

/-- A fresh `ComponentState` has no live signals. -/
theorem new_liveOf (name : String) : liveOf (ComponentState.new name) = fun _ => 0 := rfl

/-- Any balanced sequence of signal mutations applied to a well-formed
state succeeds and ends well-formed. -/
theorem applyOps_WF (ops : List SignalOp) : ∀ cs : ComponentState,
    StateWF cs → BalancedOps (liveOf cs) ops →
    ∃ cs', applyOps cs ops = some cs' ∧ StateWF cs' := by
  induction ops with
  | nil => exact fun cs hwf _ => ⟨cs, rfl, hwf⟩
  | cons op rest ih =>
    intro cs hwf hbal
    cases op with
    | add s =>
      have hwf2 := add_publisher_signal_WF cs s hwf
      have hl : liveOf (cs.add_publisher_signal s)
          = Function.update (liveOf cs) s (liveOf cs s + 1) := by
        funext t
        by_cases ht : t = s
        · subst ht
          rw [add_publisher_signal_liveOf_self, Function.update_same]
        · rw [add_publisher_signal_liveOf_ne cs s t ht, Function.update_noteq ht]
      rw [BalancedOps, ← hl] at hbal
      obtain ⟨cs', h1, h2⟩ := ih _ hwf2 hbal
      exact ⟨cs', by simp only [applyOps, applyOp, Option.some_bind]; exact h1, h2⟩
    | remove s =>
      rw [BalancedOps] at hbal
      obtain ⟨hge, hbal2⟩ := hbal
      obtain ⟨csr, hre, hwfr, hls, hlt⟩ := remove_publisher_signal_success cs s hwf hge
      have hl : liveOf csr = Function.update (liveOf cs) s (liveOf cs s - 1) := by
        funext t
        by_cases ht : t = s
        · subst ht
          rw [hls, Function.update_same]
        · rw [hlt t ht, Function.update_noteq ht]
      rw [← hl] at hbal2
      obtain ⟨cs', h1, h2⟩ := ih _ hwfr hbal2
      refine ⟨cs', ?_, h2⟩
      simp only [applyOps, applyOp, hre, Option.some_bind]
      exact h1

/-- C3: starting from a fresh `ComponentState`, any finite sequence of
`add_publisher_signal`/`remove_publisher_signal` calls in which every
remove is matched by an earlier unconsumed add of an equal signal succeeds
and yields a state where, for every severity, the count equals the sum of
the bucket's multiplicities and no bucket entry has multiplicity zero. -/
theorem componentState_invariant_balanced_history (name : String)
    (ops : List SignalOp) (hbal : BalancedOps (fun _ => 0) ops) :
    ∃ cs', applyOps (ComponentState.new name) ops = some cs'
      ∧ (∀ h : Health, cs'.counts h = sumValues (cs'.signals h))
      ∧ (∀ h : Health, ∀ p ∈ cs'.signals h, p.2 ≠ 0) := by
  have h0 : BalancedOps (liveOf (ComponentState.new name)) ops := by
    rw [new_liveOf]
    exact hbal
  obtain ⟨cs', h1, h2⟩ := applyOps_WF ops (ComponentState.new name) (new_StateWF name) h0
  exact ⟨cs', h1, fun h => (h2 h).1, fun h => (h2 h).2.1⟩

/-- A debouncer step never changes the configured delay. -/
theorem step_delay_eq (d : Debouncer) (now : Nat) (e : DebEvent) :
    ((d.step now e).1).debounce_delay = d.debounce_delay := by
  cases e with
  | trig =>
    show (d.trigger now).1.debounce_delay = d.debounce_delay
    simp only [Debouncer.trigger]
    by_cases hge : d.debounce_delay ≤ now - d.last_fired
    · rw [if_pos hge]
    · rw [if_neg hge]
      by_cases hta : d.timer_active = false
      · rw [if_pos hta]
      · rw [if_neg hta]
  | poll =>
    show (DebounceReady.poll d now).1.debounce_delay = d.debounce_delay
    simp only [DebounceReady.poll]
    by_cases hta : d.timer_active = false
    · rw [if_pos hta]
    · rw [if_neg hta]
      by_cases hd : d.timer_deadline ≤ now
      · rw [if_pos hd]
      · rw [if_neg hd]

/-- A firing step can only happen a full delay after the last fire. -/
theorem step_fire_bound (d : Debouncer) (now : Nat) (e : DebEvent)
    (hmono : d.last_fired ≤ now) (hinv : DebInv d)
    (hf : (d.step now e).2 = true) :
    d.last_fired + d.debounce_delay ≤ now := by
  cases e with
  | trig =>
    replace hf : (d.trigger now).2 = true := hf
    simp only [Debouncer.trigger] at hf
    by_cases hge : d.debounce_delay ≤ now - d.last_fired
    · omega
    · rw [if_neg hge] at hf
      by_cases hta : d.timer_active = false
      · rw [if_pos hta] at hf
        exact Bool.noConfusion hf
      · rw [if_neg hta] at hf
        exact Bool.noConfusion hf
  | poll =>
    replace hf : (DebounceReady.poll d now).2 = true := hf
    simp only [DebounceReady.poll] at hf
    by_cases hta : d.timer_active = false
    · rw [if_pos hta] at hf
      exact Bool.noConfusion hf
    · rw [if_neg hta] at hf
      have hta2 : d.timer_active = true := by
        simp only [Bool.not_eq_false] at hta
        exact hta
      have hinv2 := hinv hta2
      by_cases hd : d.timer_deadline ≤ now
      · omega
      · rw [if_neg hd] at hf
        exact Bool.noConfusion hf

/-- A firing step sets `last_fired` to the current instant. -/
theorem step_fire_last (d : Debouncer) (now : Nat) (e : DebEvent)
    (hf : (d.step now e).2 = true) : (d.step now e).1.last_fired = now := by
  cases e with
  | trig =>
    replace hf : (d.trigger now).2 = true := hf
    show (d.trigger now).1.last_fired = now
    simp only [Debouncer.trigger] at hf ⊢
    by_cases hge : d.debounce_delay ≤ now - d.last_fired
    · rw [if_pos hge]
    · rw [if_neg hge] at hf ⊢
      by_cases hta : d.timer_active = false
      · rw [if_pos hta] at hf
        exact Bool.noConfusion hf
      · rw [if_neg hta] at hf
        exact Bool.noConfusion hf
  | poll =>
    replace hf : (DebounceReady.poll d now).2 = true := hf
    show (DebounceReady.poll d now).1.last_fired = now
    simp only [DebounceReady.poll] at hf ⊢
    by_cases hta : d.timer_active = false
    · rw [if_pos hta] at hf
      exact Bool.noConfusion hf
    · rw [if_neg hta] at hf ⊢
      by_cases hd : d.timer_deadline ≤ now
      · rw [if_pos hd]
      · rw [if_neg hd] at hf
        exact Bool.noConfusion hf

/-- A non-firing step leaves `last_fired` unchanged. -/
theorem step_nofire_last (d : Debouncer) (now : Nat) (e : DebEvent)
    (hf : (d.step now e).2 = false) : (d.step now e).1.last_fired = d.last_fired := by
  cases e with
  | trig =>
    replace hf : (d.trigger now).2 = false := hf
    show (d.trigger now).1.last_fired = d.last_fired
    simp only [Debouncer.trigger] at hf ⊢
    by_cases hge : d.debounce_delay ≤ now - d.last_fired
    · rw [if_pos hge] at hf
      exact Bool.noConfusion hf
    · rw [if_neg hge]
      by_cases hta : d.timer_active = false
      · rw [if_pos hta]
      · rw [if_neg hta]
  | poll =>
    replace hf : (DebounceReady.poll d now).2 = false := hf
    show (DebounceReady.poll d now).1.last_fired = d.last_fired
    simp only [DebounceReady.poll] at hf ⊢
    by_cases hta : d.timer_active = false
    · rw [if_pos hta]
    · rw [if_neg hta] at hf ⊢
      by_cases hd : d.timer_deadline ≤ now
      · rw [if_pos hd] at hf
        exact Bool.noConfusion hf
      · rw [if_neg hd]

/-- A step at a monotone instant preserves the armed-deadline invariant. -/
theorem step_preserves_DebInv (d : Debouncer) (now : Nat) (e : DebEvent)
    (hmono : d.last_fired ≤ now) (hinv : DebInv d) : DebInv (d.step now e).1 := by
  cases e with
  | trig =>
    show DebInv (d.trigger now).1
    simp only [Debouncer.trigger]
    by_cases hge : d.debounce_delay ≤ now - d.last_fired
    · rw [if_pos hge]
      intro hcon
      exact Bool.noConfusion hcon
    · rw [if_neg hge]
      by_cases hta : d.timer_active = false
      · rw [if_pos hta]
        intro _
        show d.last_fired + d.debounce_delay ≤ now + (d.debounce_delay - (now - d.last_fired))
        omega
      · rw [if_neg hta]
        exact hinv
  | poll =>
    show DebInv (DebounceReady.poll d now).1
    simp only [DebounceReady.poll]
    by_cases hta : d.timer_active = false
    · rw [if_pos hta]
      exact hinv
    · rw [if_neg hta]
      by_cases hd : d.timer_deadline ≤ now
      · rw [if_pos hd]
        intro hcon
        exact Bool.noConfusion hcon
      · rw [if_neg hd]
        exact hinv

/-- A step at a monotone instant keeps `last_fired` no later than now. -/
theorem step_last_le (d : Debouncer) (now : Nat) (e : DebEvent)
    (hmono : d.last_fired ≤ now) : (d.step now e).1.last_fired ≤ now := by
  cases hf : (d.step now e).2 with
  | true => rw [step_fire_last d now e hf]
  | false => rw [step_nofire_last d now e hf]; exact hmono

/-- Prepending an element below all others preserves spacing. -/
theorem spaced_cons (delay t : Nat) (l : List Nat)
    (hall : ∀ x ∈ l, t + delay ≤ x) (hsp : Spaced delay l) :
    Spaced delay (t :: l) := by
  cases l with
  | nil => trivial
  | cons x xs => exact ⟨hall x (List.mem_cons_self _ _), hsp⟩

/-- Chronology is monotone in its starting instant. -/
theorem chronological_mono (t0 t1 : Nat) (l : List (Nat × DebEvent))
    (h01 : t1 ≤ t0) (h : Chronological t0 l) : Chronological t1 l := by
  cases l with
  | nil => trivial
  | cons p rest =>
    obtain ⟨q, e⟩ := p
    obtain ⟨hp, hr⟩ := h
    exact ⟨Nat.le_trans h01 hp, hr⟩

/-- Under the armed-deadline invariant and monotone instants, all fires are
at least a delay after the initial `last_fired`, and consecutive fires are
at least a delay apart. -/
theorem fireTimes_spaced_aux (events : List (Nat × DebEvent)) :
    ∀ d : Debouncer, DebInv d → Chronological d.last_fired events →
    Spaced d.debounce_delay (fireTimes d events)
    ∧ ∀ t ∈ fireTimes d events, d.last_fired + d.debounce_delay ≤ t := by
  induction events with
  | nil =>
    intro d _ _
    exact ⟨trivial, by intro t ht; rw [fireTimes] at ht; exact absurd ht (List.not_mem_nil t)⟩
  | cons te rest ih =>
    obtain ⟨t, e⟩ := te
    intro d hinv hchron
    obtain ⟨hle, hchron2⟩ := hchron
    have hdelay : (d.step t e).1.debounce_delay = d.debounce_delay := step_delay_eq d t e
    cases hf : (d.step t e).2 with
    | true =>
      have hlast : (d.step t e).1.last_fired = t := step_fire_last d t e hf
      have hbound : d.last_fired + d.debounce_delay ≤ t := step_fire_bound d t e hle hinv hf
      have hinv2 : DebInv (d.step t e).1 := step_preserves_DebInv d t e hle hinv
      have hchron3 : Chronological (d.step t e).1.last_fired rest := by
        rw [hlast]
        exact hchron2
      obtain ⟨hsp, hball⟩ := ih (d.step t e).1 hinv2 hchron3
      rw [hdelay, hlast] at hball
      have hft : fireTimes d ((t, e) :: rest) = t :: fireTimes (d.step t e).1 rest := by
        rw [fireTimes]
        simp only [hf, if_true]
      rw [hft]
      constructor
      · refine spaced_cons _ _ _ hball ?_
        rw [hdelay] at hsp
        exact hsp
      · intro x hx
        rcases List.mem_cons.mp hx with rfl | hx
        · exact hbound
        · have := hball x hx
          omega
    | false =>
      have hlast : (d.step t e).1.last_fired = d.last_fired := step_nofire_last d t e hf
      have hinv2 : DebInv (d.step t e).1 := step_preserves_DebInv d t e hle hinv
      have hchron3 : Chronological (d.step t e).1.last_fired rest := by
        rw [hlast]
        exact chronological_mono t d.last_fired rest hle hchron2
      obtain ⟨hsp, hball⟩ := ih (d.step t e).1 hinv2 hchron3
      rw [hdelay, hlast] at hball
      rw [hdelay] at hsp
      have hft : fireTimes d ((t, e) :: rest) = fireTimes (d.step t e).1 rest := by
        rw [fireTimes]
        simp [hf]
      rw [hft]
      exact ⟨hsp, hball⟩

/-- C7: for any chronological sequence of `trigger()` calls and `ready()`
polls against a freshly constructed debouncer, any two consecutive fires
(a `trigger()` returning true or a `ready()` completion) are at least the
configured delay apart. -/
theorem debouncer_fires_spaced (t0 delay : Nat) (events : List (Nat × DebEvent))
    (hchron : Chronological t0 events) :
    Spaced delay (fireTimes (Debouncer.new t0 delay) events) := by
  have hinv : DebInv (Debouncer.new t0 delay) := by
    intro hcon
    exact Bool.noConfusion hcon
  have h := fireTimes_spaced_aux events (Debouncer.new t0 delay) hinv hchron
  exact h.1

/-- Witness for the C2 theorem at a fresh component state. -/
theorem componentState_state_spec_witness :
    ((ComponentState.new "c").state = none
      ∨ (ComponentState.new "c").state = some (ComponentState.new "c").computeState)
    ∧ (((ComponentState.new "c").getState).1 = (ComponentState.new "c").computeState
      ∧ ((ComponentState.new "c").getState).2.state
          = some (ComponentState.new "c").computeState
      ∧ ((ComponentState.new "c").getState).2.counts = (ComponentState.new "c").counts
      ∧ ((ComponentState.new "c").getState).2.signals = (ComponentState.new "c").signals
      ∧ (∀ h0, (ComponentState.new "c").state = some h0 →
          (ComponentState.new "c").getState = (h0, ComponentState.new "c"))
      ∧ ((0 < (ComponentState.new "c").counts ((ComponentState.new "c").getState).1
          ∧ ∀ g, 0 < (ComponentState.new "c").counts g →
              g ≤ ((ComponentState.new "c").getState).1)
        ∨ (((ComponentState.new "c").getState).1 = Health.Nominal
          ∧ ∀ g, (ComponentState.new "c").counts g = 0))) :=
  ⟨Or.inl rfl, componentState_state_spec (ComponentState.new "c") (Or.inl rfl)⟩

/-- Witness for the C3 theorem: two adds of the nominal signal followed by
one matched remove. -/
theorem componentState_invariant_balanced_history_witness :
    BalancedOps (fun _ => 0)
      [SignalOp.add Signal.nominal, SignalOp.add Signal.nominal,
        SignalOp.remove Signal.nominal]
    ∧ ∃ cs', applyOps (ComponentState.new "c")
        [SignalOp.add Signal.nominal, SignalOp.add Signal.nominal,
          SignalOp.remove Signal.nominal] = some cs'
      ∧ (∀ h : Health, cs'.counts h = sumValues (cs'.signals h))
      ∧ (∀ h : Health, ∀ p ∈ cs'.signals h, p.2 ≠ 0) :=
  ⟨by simp [BalancedOps, Function.update_same],
   componentState_invariant_balanced_history "c" _
     (by simp [BalancedOps, Function.update_same])⟩

/-- Witness for the C6 theorem: a trigger 150 ticks after construction of a
100-tick debouncer. -/
theorem debouncer_trigger_spec_witness :
    (Debouncer.new 0 100).last_fired ≤ 150
    ∧ (((Debouncer.new 0 100).debounce_delay ≤ 150 - (Debouncer.new 0 100).last_fired →
        ((Debouncer.new 0 100).trigger 150).2 = true
        ∧ ((Debouncer.new 0 100).trigger 150).1.last_fired = 150
        ∧ ((Debouncer.new 0 100).trigger 150).1.timer_active = false)
      ∧ (150 - (Debouncer.new 0 100).last_fired < (Debouncer.new 0 100).debounce_delay →
        ((Debouncer.new 0 100).trigger 150).2 = false
        ∧ ((Debouncer.new 0 100).timer_active = false →
            ((Debouncer.new 0 100).trigger 150).1.timer_active = true
            ∧ ((Debouncer.new 0 100).trigger 150).1.timer_deadline
                = (Debouncer.new 0 100).last_fired + (Debouncer.new 0 100).debounce_delay
            ∧ ((Debouncer.new 0 100).trigger 150).1.last_fired
                = (Debouncer.new 0 100).last_fired)
        ∧ ((Debouncer.new 0 100).timer_active = true →
            ((Debouncer.new 0 100).trigger 150).1 = Debouncer.new 0 100))) :=
  ⟨by decide, debouncer_trigger_spec (Debouncer.new 0 100) 150 (by decide)⟩

/-- Witness for the C7 theorem: three chronological events against a
10-tick debouncer. -/
theorem debouncer_fires_spaced_witness :
    Chronological 0 [(0, DebEvent.trig), (3, DebEvent.trig), (12, DebEvent.poll)]
    ∧ Spaced 10 (fireTimes (Debouncer.new 0 10)
        [(0, DebEvent.trig), (3, DebEvent.trig), (12, DebEvent.poll)]) :=
  ⟨by simp [Chronological],
   debouncer_fires_spaced 0 10 _ (by simp [Chronological])⟩

/-- Witness for the C8 theorem: re-publishing the nominal signal of a fresh
publisher. -/
theorem publish_identical_signal_noop_witness :
    Signal.new Health.Nominal 0 = (Publisher.new true).1.signal
    ∧ ((Publisher.new true).1.publish Health.Nominal 0 = ((Publisher.new true).1, none)
      ∧ ((Publisher.new true).1.publish Health.Nominal 0).1.publish Health.Nominal 0
          = (((Publisher.new true).1.publish Health.Nominal 0).1, none)) :=
  ⟨rfl, publish_identical_signal_noop (Publisher.new true).1 Health.Nominal 0 rfl⟩

/-- Witness for the C10 theorem: removing the one live nominal signal. -/
theorem remove_publisher_signal_no_underflow_witness :
    1 ≤ ((ComponentState.new "c").add_publisher_signal Signal.nominal).counts
        Signal.nominal.state
    ∧ (∀ p ∈ ([] : List (Signal × Nat)), p.1 ≠ Signal.nominal)
    ∧ (((((ComponentState.new "c").add_publisher_signal Signal.nominal).remove_publisher_signal
          Signal.nominal).isSome = true)
      ∧ dec_or_remove [] Signal.nominal = []) :=
  ⟨by decide, by simp,
   remove_publisher_signal_no_underflow
     ((ComponentState.new "c").add_publisher_signal Signal.nominal) Signal.nominal []
     (by decide) (by simp)⟩
